import Mathlib

/-!
Verification of the steamclipconverter core (src/main.rs): a shallow embedding
of the clip-directory scanner (find_fg_clip_dirs), the library-root discovery
(discover_steamapps_roots), the key-value extractors (parse_acf_name,
parse_libraryfolders_paths), the app-name resolver (resolve_app_name), the
cascading cleanup controller (maybe_remove_clip_grandparent) and the per-clip
post-remux step of fn main, together with theorems settling the
specification's claims.
-/

namespace SteamClip

open scoped List

/-- Filesystem paths are modelled as lists of components, mirroring PathBuf:
PathBuf::join appends a component, Path::parent drops the last component and
Path::file_name is the last component. -/
abbrev FsPath := List String

/-- ASCII decimal digit: the characters accepted by u32 parsing.  The source
regexes use \d (Unicode-aware in the regex crate); names are modelled over
ASCII digit strings, the domain on which the regex digit class and the
numeric parse agree. -/
def isDigitCh (c : Char) : Bool := c.isDigit

/-- Strip an expected literal character sequence from the front of the input,
returning the remainder on success. -/
def stripPre : List Char → List Char → Option (List Char)
  | [], cs => some cs
  | _ :: _, [] => none
  | p :: ps, c :: cs => if c = p then stripPre ps cs else none

/-- Split a character sequence on the underscore delimiter (the fixed
delimiter of both naming grammars). -/
def splitUnders : List Char → List (List Char)
  | [] => [[]]
  | c :: rest =>
    if c = '_' then [] :: splitUnders rest
    else
      match splitUnders rest with
      | [] => [[c]]
      | g :: gs => (c :: g) :: gs

/-- A digit run: nonempty sequence of decimal digits, embedding a (\d+)
group. -/
def digitRun (cs : List Char) : Bool := !cs.isEmpty && cs.all isDigitCh

/-- A fixed-width digit group, embedding a (\d{n}) group. -/
def digitGroup (n : Nat) (cs : List Char) : Bool :=
  decide (cs.length = n) && cs.all isDigitCh

/-- Embedding of the anchored regular expression PRE(\d+)_(\d{8})_(\d{6})$
(used with prefix fg_ by the scanner and clip_ by the cleanup controller):
the whole name must be the literal prefix followed by exactly three
underscore-separated digit groups of widths one-or-more, 8 and 6.  Since a
digit group cannot contain the delimiter, the regex match decomposes the name
uniquely in this way; the three captured groups are returned. -/
def matchTokenName (pre : List Char) (name : String) :
    Option (String × String × String) :=
  match stripPre pre name.data with
  | none => none
  | some rest =>
    match splitUnders rest with
    | [a, b, c] =>
      if digitRun a && digitGroup 8 b && digitGroup 6 c then
        some (String.mk a, String.mk b, String.mk c)
      else none
    | _ => none

/-- The scanner's clip-name pattern ^fg_(\d+)_(\d{8})_(\d{6})$. -/
def matchFg (name : String) : Option (String × String × String) :=
  matchTokenName "fg_".data name

/-- The cleanup controller's container pattern ^clip_\d+_\d{8}_\d{6}$
(is_match only; no captures are used by the source). -/
def isClipContainerName (name : String) : Bool :=
  (matchTokenName "clip_".data name).isSome

/-- Numeric value of a digit string (most significant digit first). -/
def digitsVal (cs : List Char) : Nat :=
  cs.foldl (fun a c => a * 10 + (c.toNat - '0'.toNat)) 0

/-- Embedding of str::parse::<u32>() applied to a captured group: succeeds
exactly on a nonempty all-ASCII-digit string whose value fits in u32, and
fails (PosOverflow) when the value exceeds u32::MAX. -/
def parseU32 (cs : List Char) : Option Nat :=
  if !cs.isEmpty && cs.all isDigitCh && decide (digitsVal cs ≤ 4294967295) then
    some (digitsVal cs)
  else none

/-- The scanner's appid computation: caps[1].parse::<u32>().unwrap_or(0). -/
def appidOf (a : String) : Nat := (parseU32 a.data).getD 0

/-- One discovered clip folder (struct ClipDir in the source). -/
structure ClipDir where
  dir : FsPath
  appid : Nat
  date : String
  time : String
deriving DecidableEq

/-- A directory tree as the scanner observes it through the filesystem API:
read_dir yields the listed entries in order (per-entry read errors are
already dropped by .flatten() in the source, so children are the surviving
entries); readable = false models a read_dir call failing on that directory;
file stands for any non-directory entry (skipped by the is_dir check). -/
inductive Entry where
  | file (name : String)
  | dir (name : String) (readable : Bool) (children : List Entry)

def Entry.name : Entry → String
  | .file n => n
  | .dir n _ _ => n

mutual
/-- Size measure of a tree, for termination of the worklist loop. -/
def entrySize : Entry → Nat
  | .file _ => 1
  | .dir _ _ ch => 1 + entryListSize ch
/-- Size measure of a list of sibling trees. -/
def entryListSize : List Entry → Nat
  | [] => 0
  | e :: es => entrySize e + entryListSize es
end

/-- Records appended to the output while the scanner iterates the listed
entries of the directory at ppath: one verbatim record per subdirectory whose
name matches the clip grammar with an identifier parsing to nonzero. -/
def recordsOfEntries (ppath : FsPath) (es : List Entry) : List ClipDir :=
  es.filterMap fun e =>
    match e with
    | .file _ => none
    | .dir n _ _ =>
      match matchFg n with
      | some (a, d, t) =>
        if appidOf a ≠ 0 then some ⟨ppath ++ [n], appidOf a, d, t⟩ else none
      | none => none

/-- Directories pushed onto the worklist while the scanner iterates the
listed entries: exactly the subdirectories whose name does not match the clip
grammar (a grammar match, zero identifier or not, is terminal). -/
def pushesOfEntries (ppath : FsPath) (es : List Entry) : List (FsPath × Entry) :=
  es.filterMap fun e =>
    match e with
    | .file _ => none
    | .dir n _ _ =>
      match matchFg n with
      | some _ => none
      | none => some (ppath ++ [n], e)

/-- Total size of the entries on the worklist. -/
def stackSize (st : List (FsPath × Entry)) : Nat :=
  (st.map fun pe => entrySize pe.2).sum

theorem entrySize_pos (e : Entry) : 0 < entrySize e := by
  cases e <;> simp [entrySize]

theorem stackSize_nil : stackSize [] = 0 := rfl

theorem stackSize_cons (p : FsPath) (e : Entry) (st : List (FsPath × Entry)) :
    stackSize ((p, e) :: st) = entrySize e + stackSize st := by
  simp [stackSize]

theorem stackSize_append (a b : List (FsPath × Entry)) :
    stackSize (a ++ b) = stackSize a + stackSize b := by
  simp [stackSize]

theorem stackSize_reverse (a : List (FsPath × Entry)) :
    stackSize a.reverse = stackSize a := by
  simp [stackSize, List.map_reverse, List.sum_reverse]

theorem stackSize_pushes_le (p : FsPath) (ch : List Entry) :
    stackSize (pushesOfEntries p ch) ≤ entryListSize ch := by
  induction ch with
  | nil => simp [pushesOfEntries, stackSize, entryListSize]
  | cons e es ih =>
    have hpos := entrySize_pos e
    cases e with
    | file n =>
      simp only [pushesOfEntries, List.filterMap_cons] at *
      simp only [entryListSize]
      omega
    | dir n r ch' =>
      simp only [pushesOfEntries, List.filterMap_cons] at *
      cases hm : matchFg n with
      | some g =>
        simp only [hm, entryListSize]
        omega
      | none =>
        simp only [hm, stackSize_cons, entryListSize]
        omega

/-- The scanner's worklist loop (fn find_fg_clip_dirs, lines 261-294): pop a
directory, read it (a failing read_dir, including on a non-directory, skips
the popped element), append the records of its matching subdirectories to the
output and push its non-matching subdirectories.  The Rust Vec pushes to and
pops from the back; the list here keeps the top of the stack at the head, so
a batch of pushes appears reversed at the head. -/
def scanGo : List (FsPath × Entry) → List ClipDir → List ClipDir
  | [], out => out
  | (_, .file _) :: rest, out => scanGo rest out
  | (_, .dir _ false _) :: rest, out => scanGo rest out
  | (p, .dir _ true ch) :: rest, out =>
      scanGo ((pushesOfEntries p ch).reverse ++ rest) (out ++ recordsOfEntries p ch)
termination_by st _ => stackSize st
decreasing_by
  · simp only [stackSize_cons, entrySize]
    omega
  · simp only [stackSize_cons, entrySize]
    omega
  · have h1 := stackSize_pushes_le p ch
    simp only [stackSize_append, stackSize_reverse, stackSize_cons, entrySize]
    omega

/-- fn find_fg_clip_dirs: seed the worklist with the input root and run the
loop.  The source swallows every read_dir failure (Err(_) => continue) and
ends with Ok(out), so no Err value is ever produced; the io::Result type is
mirrored by Except. -/
def find_fg_clip_dirs (root : FsPath) (tree : Entry) :
    Except String (List ClipDir) :=
  Except.ok (scanGo [(root, tree)] [])

mutual
/-- Specification view of the scan: the records contributed by one listed
subdirectory entry.  A grammar match with a nonzero parsed identifier yields
exactly its single verbatim record; a grammar match with identifier 0 yields
nothing; either way a grammar match is terminal (no descent); a non-matching
directory is traversed when readable and contributes nothing when its
read_dir fails; non-directory entries contribute nothing. -/
def clipsFromChild (ppath : FsPath) : Entry → List ClipDir
  | .file _ => []
  | .dir n r ch =>
    match matchFg n with
    | some (a, d, t) =>
      if appidOf a ≠ 0 then [⟨ppath ++ [n], appidOf a, d, t⟩] else []
    | none => if r then clipsFromChildren (ppath ++ [n]) ch else []
/-- Records contributed by a list of sibling entries, in listing order. -/
def clipsFromChildren (ppath : FsPath) : List Entry → List ClipDir
  | [] => []
  | e :: es => clipsFromChild ppath e ++ clipsFromChildren ppath es
end

/-- Records contributed by a worklist element once popped: its name was
classified before it was pushed (or it is the root, which is never
classified), so only readability matters at pop time. -/
def clipsFromPopped (p : FsPath) : Entry → List ClipDir
  | .file _ => []
  | .dir _ false _ => []
  | .dir _ true ch => clipsFromChildren p ch

/-- Records still to be contributed by an entire worklist. -/
def stackClips (st : List (FsPath × Entry)) : List ClipDir :=
  st.flatMap fun pe => clipsFromPopped pe.1 pe.2

theorem stackClips_nil : stackClips [] = [] := rfl

theorem stackClips_cons (p : FsPath) (e : Entry) (st : List (FsPath × Entry)) :
    stackClips ((p, e) :: st) = clipsFromPopped p e ++ stackClips st := by
  simp [stackClips]

theorem stackClips_append (a b : List (FsPath × Entry)) :
    stackClips (a ++ b) = stackClips a ++ stackClips b := by
  simp [stackClips]

theorem stackClips_reverse_perm (st : List (FsPath × Entry)) :
    (stackClips st.reverse).Perm (stackClips st) := by
  induction st with
  | nil => simp
  | cons pe rest ih =>
    obtain ⟨p, e⟩ := pe
    have h1 : stackClips (((p, e) :: rest).reverse)
        = stackClips rest.reverse ++ clipsFromPopped p e := by
      rw [List.reverse_cons, stackClips_append]
      simp [stackClips]
    rw [h1, stackClips_cons]
    exact List.perm_append_comm.trans (List.Perm.append_left _ ih)

/-- Three-way append rotation used to reassociate the scanner output. -/
theorem perm_rotate {α : Type} (a b c : List α) :
    (a ++ (b ++ c)).Perm (b ++ (a ++ c)) := by
  calc a ++ (b ++ c) = (a ++ b) ++ c := (List.append_assoc a b c).symm
    _ ~ (b ++ a) ++ c := List.Perm.append_right c List.perm_append_comm
    _ = b ++ (a ++ c) := List.append_assoc b a c

/-- Per-entry record contribution of one listed entry (the head step of
recordsOfEntries). -/
def clipHead (ppath : FsPath) (e : Entry) : List ClipDir :=
  match e with
  | .file _ => []
  | .dir n _ _ =>
    match matchFg n with
    | some (a, d, t) =>
      if appidOf a ≠ 0 then [⟨ppath ++ [n], appidOf a, d, t⟩] else []
    | none => []

/-- Per-entry push contribution of one listed entry (the head step of
pushesOfEntries). -/
def pushHead (ppath : FsPath) (e : Entry) : List (FsPath × Entry) :=
  match e with
  | .file _ => []
  | .dir n _ _ =>
    match matchFg n with
    | some _ => []
    | none => [(ppath ++ [n], e)]

theorem recordsOfEntries_cons (p : FsPath) (e : Entry) (es : List Entry) :
    recordsOfEntries p (e :: es) =
      clipHead p e ++ recordsOfEntries p es := by
  cases e with
  | file n => simp [recordsOfEntries, clipHead, List.filterMap_cons]
  | dir n r ch =>
    cases hm : matchFg n with
    | some g =>
      obtain ⟨a, d, t⟩ := g
      by_cases h0 : appidOf a ≠ 0 <;>
        simp [recordsOfEntries, clipHead, List.filterMap_cons, hm, h0]
    | none => simp [recordsOfEntries, clipHead, List.filterMap_cons, hm]

theorem pushesOfEntries_cons (p : FsPath) (e : Entry) (es : List Entry) :
    pushesOfEntries p (e :: es) =
      pushHead p e ++ pushesOfEntries p es := by
  cases e with
  | file n => simp [pushesOfEntries, pushHead, List.filterMap_cons]
  | dir n r ch =>
    cases hm : matchFg n with
    | some g => simp [pushesOfEntries, pushHead, List.filterMap_cons, hm]
    | none => simp [pushesOfEntries, pushHead, List.filterMap_cons, hm]

/-- The records plus pending pushes produced by one entry-listing pass are,
up to order, exactly the specification-view records of those entries. -/
theorem records_pushes_perm (p : FsPath) (ch : List Entry) :
    (recordsOfEntries p ch ++ stackClips (pushesOfEntries p ch)).Perm
      (clipsFromChildren p ch) := by
  induction ch with
  | nil => simp [recordsOfEntries, pushesOfEntries, clipsFromChildren, stackClips]
  | cons e es ih =>
    have hhead : (clipHead p e ++ stackClips (pushHead p e)).Perm
        (clipsFromChild p e) := by
      cases e with
      | file n => simp [clipHead, pushHead, clipsFromChild, stackClips]
      | dir n r ch' =>
        cases hm : matchFg n with
        | some g =>
          obtain ⟨a, d, t⟩ := g
          by_cases h0 : appidOf a ≠ 0 <;>
            simp [clipHead, pushHead, clipsFromChild, stackClips, hm, h0]
        | none =>
          cases r <;>
            simp [clipHead, pushHead, clipsFromChild, clipsFromPopped,
              stackClips, hm]
    rw [recordsOfEntries_cons, pushesOfEntries_cons, stackClips_append]
    have hstep : (clipHead p e ++ recordsOfEntries p es
          ++ (stackClips (pushHead p e) ++ stackClips (pushesOfEntries p es))).Perm
        ((clipHead p e ++ stackClips (pushHead p e))
          ++ (recordsOfEntries p es ++ stackClips (pushesOfEntries p es))) := by
      rw [List.append_assoc, List.append_assoc]
      exact List.Perm.append_left _ (perm_rotate _ _ _)
    have hcce : clipsFromChildren p (e :: es)
        = clipsFromChild p e ++ clipsFromChildren p es := by
      simp [clipsFromChildren]
    rw [hcce]
    exact hstep.trans (List.Perm.append hhead ih)

/-- The worklist loop emits, up to order, the output accumulated so far plus
the specification-view records of everything still on the worklist. -/
theorem scanGo_perm :
    ∀ (k : Nat) (st : List (FsPath × Entry)) (out : List ClipDir),
      stackSize st ≤ k → (scanGo st out).Perm (out ++ stackClips st) := by
  intro k
  induction k using Nat.strong_induction_on with
  | _ k ih =>
    intro st out hk
    match st with
    | [] => simp [scanGo, stackClips]
    | (p, Entry.file n) :: rest =>
      have hsz : stackSize rest < k := by
        have h2 := stackSize_cons p (Entry.file n) rest
        have h3 : entrySize (Entry.file n) = 1 := rfl
        omega
      have h1 : scanGo ((p, Entry.file n) :: rest) out = scanGo rest out := by
        simp [scanGo]
      rw [h1, stackClips_cons]
      simpa [clipsFromPopped] using ih (stackSize rest) hsz rest out le_rfl
    | (p, Entry.dir n false ch) :: rest =>
      have hsz : stackSize rest < k := by
        have h2 := stackSize_cons p (Entry.dir n false ch) rest
        have h3 := entrySize_pos (Entry.dir n false ch)
        omega
      have h1 : scanGo ((p, Entry.dir n false ch) :: rest) out = scanGo rest out := by
        simp [scanGo]
      rw [h1, stackClips_cons]
      simpa [clipsFromPopped] using ih (stackSize rest) hsz rest out le_rfl
    | (p, Entry.dir n true ch) :: rest =>
      have hple := stackSize_pushes_le p ch
      have hsz : stackSize ((pushesOfEntries p ch).reverse ++ rest) < k := by
        have h2 := stackSize_cons p (Entry.dir n true ch) rest
        have h3 : entrySize (Entry.dir n true ch) = 1 + entryListSize ch := by
          simp [entrySize]
        rw [stackSize_append, stackSize_reverse]
        omega
      have h1 : scanGo ((p, Entry.dir n true ch) :: rest) out =
          scanGo ((pushesOfEntries p ch).reverse ++ rest)
            (out ++ recordsOfEntries p ch) := by
        simp [scanGo]
      rw [h1, stackClips_cons]
      have hrec := ih _ hsz ((pushesOfEntries p ch).reverse ++ rest)
        (out ++ recordsOfEntries p ch) le_rfl
      have heq1 : (out ++ recordsOfEntries p ch)
            ++ stackClips ((pushesOfEntries p ch).reverse ++ rest)
          = out ++ (recordsOfEntries p ch
              ++ (stackClips ((pushesOfEntries p ch).reverse) ++ stackClips rest)) := by
        rw [stackClips_append]
        simp [List.append_assoc]
      have hp2 : (out ++ (recordsOfEntries p ch
            ++ (stackClips ((pushesOfEntries p ch).reverse) ++ stackClips rest))).Perm
          (out ++ (recordsOfEntries p ch
            ++ (stackClips (pushesOfEntries p ch) ++ stackClips rest))) :=
        List.Perm.append_left _ (List.Perm.append_left _
          (List.Perm.append_right _ (stackClips_reverse_perm _)))
      have heq2 : out ++ (recordsOfEntries p ch
            ++ (stackClips (pushesOfEntries p ch) ++ stackClips rest))
          = out ++ ((recordsOfEntries p ch ++ stackClips (pushesOfEntries p ch))
            ++ stackClips rest) := by simp [List.append_assoc]
      have hp3 : (out ++ ((recordsOfEntries p ch ++ stackClips (pushesOfEntries p ch))
            ++ stackClips rest)).Perm
          (out ++ (clipsFromChildren p ch ++ stackClips rest)) :=
        List.Perm.append_left _
          (List.Perm.append_right _ (records_pushes_perm p ch))
      have heq3 : clipsFromChildren p ch
          = clipsFromPopped p (Entry.dir n true ch) := by simp [clipsFromPopped]
      have hfinal : ((out ++ recordsOfEntries p ch)
            ++ stackClips ((pushesOfEntries p ch).reverse ++ rest)).Perm
          (out ++ (clipsFromChildren p ch ++ stackClips rest)) := by
        rw [heq1]
        refine hp2.trans ?_
        rw [heq2]
        exact hp3
      rw [← heq3]
      exact hrec.trans hfinal

/-- The scan result is, up to order, exactly the specification-view record
collection of the root. -/
theorem find_fg_clip_dirs_perm (p : FsPath) (e : Entry) (l : List ClipDir)
    (h : find_fg_clip_dirs p e = Except.ok l) :
    l.Perm (clipsFromPopped p e) := by
  have hl : l = scanGo [(p, e)] [] := by
    have := h
    simp only [find_fg_clip_dirs, Except.ok.injEq] at this
    exact this.symm
  subst hl
  have := scanGo_perm (stackSize [(p, e)]) [(p, e)] [] le_rfl
  simpa [stackClips_cons, stackClips_nil] using this

theorem mem_clipsFromChildren {pp : FsPath} {ch : List Entry} {c : ClipDir} :
    c ∈ clipsFromChildren pp ch ↔ ∃ e ∈ ch, c ∈ clipsFromChild pp e := by
  induction ch with
  | nil => simp [clipsFromChildren]
  | cons e es ih =>
    simp only [clipsFromChildren, List.mem_append, ih]
    constructor
    · rintro (h | ⟨e', he', hc⟩)
      · exact ⟨e, List.mem_cons_self e es, h⟩
      · exact ⟨e', List.mem_cons_of_mem _ he', hc⟩
    · rintro ⟨e', he', hc⟩
      rcases List.mem_cons.mp he' with rfl | he'
      · exact Or.inl hc
      · exact Or.inr ⟨e', he', hc⟩

theorem entrySize_le_of_mem : ∀ {ch : List Entry} {e : Entry},
    e ∈ ch → entrySize e ≤ entryListSize ch := by
  intro ch
  induction ch with
  | nil => intro e h; cases h
  | cons a es ih =>
    intro e h
    have hsz : entryListSize (a :: es) = entrySize a + entryListSize es := by
      simp [entryListSize]
    rcases List.mem_cons.mp h with rfl | h
    · omega
    · have := ih h
      omega

/-- Every record contributed by a list of sibling entries lies at a path that
extends the parent path by the name of one of those entries. -/
theorem clipsFromChildren_shape :
    ∀ (k : Nat) (ch : List Entry) (pp : FsPath) (c : ClipDir),
      entryListSize ch ≤ k → c ∈ clipsFromChildren pp ch →
      ∃ e ∈ ch, ∃ s, c.dir = pp ++ Entry.name e :: s := by
  intro k
  induction k using Nat.strong_induction_on with
  | _ k ih =>
    intro ch
    induction ch with
    | nil => intro pp c _ hc; simp [clipsFromChildren] at hc
    | cons e es ihes =>
      intro pp c hk hc
      have hsize : entryListSize (e :: es) = entrySize e + entryListSize es := by
        simp [entryListSize]
      have hc' : c ∈ clipsFromChild pp e ∨ c ∈ clipsFromChildren pp es := by
        simpa [clipsFromChildren, List.mem_append] using hc
      rcases hc' with h | h
      · cases e with
        | file n => simp [clipsFromChild] at h
        | dir n r ch' =>
          cases hm : matchFg n with
          | some g =>
            obtain ⟨a, d, t⟩ := g
            by_cases h0 : appidOf a ≠ 0
            · have hcv : c = ⟨pp ++ [n], appidOf a, d, t⟩ := by
                simpa [clipsFromChild, hm, h0] using h
              exact ⟨Entry.dir n r ch', List.mem_cons_self _ _, [],
                by simp [hcv, Entry.name]⟩
            · simp [clipsFromChild, hm, h0] at h
          | none =>
            cases r with
            | false => simp [clipsFromChild, hm] at h
            | true =>
              have h2 : c ∈ clipsFromChildren (pp ++ [n]) ch' := by
                simpa [clipsFromChild, hm] using h
              have h4 : entrySize (Entry.dir n true ch') = 1 + entryListSize ch' := by
                simp [entrySize]
              have hlt : entryListSize ch' < k := by omega
              obtain ⟨e'', he'', s, hs⟩ :=
                ih (entryListSize ch') hlt ch' (pp ++ [n]) c le_rfl h2
              refine ⟨Entry.dir n true ch', List.mem_cons_self _ _,
                Entry.name e'' :: s, ?_⟩
              rw [hs]
              simp [Entry.name]
      · have hpos := entrySize_pos e
        have hk2 : entryListSize es ≤ k := by omega
        obtain ⟨e', he', s, hs⟩ := ihes pp c hk2 h
        exact ⟨e', List.mem_cons_of_mem _ he', s, hs⟩

/-- Every record returned by the scan has a strictly positive identifier. -/
theorem clipsFromChildren_appid_pos :
    ∀ (k : Nat) (ch : List Entry) (pp : FsPath) (c : ClipDir),
      entryListSize ch ≤ k → c ∈ clipsFromChildren pp ch → 0 < c.appid := by
  intro k
  induction k using Nat.strong_induction_on with
  | _ k ih =>
    intro ch
    induction ch with
    | nil => intro pp c _ hc; simp [clipsFromChildren] at hc
    | cons e es ihes =>
      intro pp c hk hc
      have hsize : entryListSize (e :: es) = entrySize e + entryListSize es := by
        simp [entryListSize]
      have hc' : c ∈ clipsFromChild pp e ∨ c ∈ clipsFromChildren pp es := by
        simpa [clipsFromChildren, List.mem_append] using hc
      rcases hc' with h | h
      · cases e with
        | file n => simp [clipsFromChild] at h
        | dir n r ch' =>
          cases hm : matchFg n with
          | some g =>
            obtain ⟨a, d, t⟩ := g
            by_cases h0 : appidOf a ≠ 0
            · have hcv : c = ⟨pp ++ [n], appidOf a, d, t⟩ := by
                simpa [clipsFromChild, hm, h0] using h
              rw [hcv]
              exact Nat.pos_of_ne_zero h0
            · simp [clipsFromChild, hm, h0] at h
          | none =>
            cases r with
            | false => simp [clipsFromChild, hm] at h
            | true =>
              have h2 : c ∈ clipsFromChildren (pp ++ [n]) ch' := by
                simpa [clipsFromChild, hm] using h
              have h4 : entrySize (Entry.dir n true ch') = 1 + entryListSize ch' := by
                simp [entrySize]
              have hlt : entryListSize ch' < k := by omega
              exact ih (entryListSize ch') hlt ch' (pp ++ [n]) c le_rfl h2
      · have hpos := entrySize_pos e
        have hk2 : entryListSize es ≤ k := by omega
        exact ihes pp c hk2 h

mutual
/-- Well-formedness of an observed tree: sibling names are distinct at every
level, as on a real filesystem. -/
def wfB : Entry → Bool
  | .file _ => true
  | .dir _ _ ch => decide ((ch.map Entry.name).Nodup) && wfListB ch
/-- Well-formedness of a list of sibling trees (each subtree well-formed). -/
def wfListB : List Entry → Bool
  | [] => true
  | e :: es => wfB e && wfListB es
end

theorem wfB_dir {n : String} {r : Bool} {ch : List Entry} :
    wfB (Entry.dir n r ch) = true ↔
      (ch.map Entry.name).Nodup ∧ wfListB ch = true := by
  simp [wfB]

theorem wfListB_cons {e : Entry} {es : List Entry} :
    wfListB (e :: es) = true ↔ wfB e = true ∧ wfListB es = true := by
  simp [wfListB]

/-- Two records whose paths branch at distinct component names are not
prefix-related. -/
def pathsDisjoint (a b : ClipDir) : Prop :=
  ¬ a.dir <+: b.dir ∧ ¬ b.dir <+: a.dir

theorem not_isPre_of_ne_head (pp : FsPath) {n₁ n₂ : String}
    (s₁ s₂ : List String) (h : n₁ ≠ n₂) :
    ¬ (pp ++ n₁ :: s₁) <+: (pp ++ n₂ :: s₂) := by
  rintro ⟨t, ht⟩
  rw [List.append_assoc] at ht
  have h2 := List.append_cancel_left ht
  simp only [List.cons_append] at h2
  injection h2 with h3 _
  exact h h3

/-- Records contributed by well-formed sibling entries are pairwise
non-nested: no record path is a prefix of another record path. -/
theorem clipsFromChildren_pairwise :
    ∀ (k : Nat) (ch : List Entry) (pp : FsPath),
      entryListSize ch ≤ k → (ch.map Entry.name).Nodup → wfListB ch = true →
      (clipsFromChildren pp ch).Pairwise pathsDisjoint := by
  intro k
  induction k using Nat.strong_induction_on with
  | _ k ih =>
    intro ch
    induction ch with
    | nil => intro pp _ _ _; simp [clipsFromChildren]
    | cons e es ihes =>
      intro pp hk hnd hwf
      have hsize : entryListSize (e :: es) = entrySize e + entryListSize es := by
        simp [entryListSize]
      have hpos := entrySize_pos e
      have hnd2 : Entry.name e ∉ es.map Entry.name ∧ (es.map Entry.name).Nodup := by
        simpa [List.nodup_cons] using hnd
      have hwf2 := wfListB_cons.mp hwf
      have hgoal : clipsFromChildren pp (e :: es)
          = clipsFromChild pp e ++ clipsFromChildren pp es := by
        simp [clipsFromChildren]
      rw [hgoal, List.pairwise_append]
      refine ⟨?_, ?_, ?_⟩
      · -- the head entry's own contribution is pairwise disjoint
        cases e with
        | file n => simp [clipsFromChild]
        | dir n r ch' =>
          cases hm : matchFg n with
          | some g =>
            obtain ⟨a, d, t⟩ := g
            by_cases h0 : appidOf a ≠ 0 <;> simp [clipsFromChild, hm, h0]
          | none =>
            cases r with
            | false => simp [clipsFromChild, hm]
            | true =>
              have h4 : entrySize (Entry.dir n true ch') = 1 + entryListSize ch' := by
                simp [entrySize]
              have hlt : entryListSize ch' < k := by omega
              have hwfd := wfB_dir.mp hwf2.1
              have := ih (entryListSize ch') hlt ch' (pp ++ [n]) le_rfl
                hwfd.1 hwfd.2
              simpa [clipsFromChild, hm] using this
      · have hk2 : entryListSize es ≤ k := by omega
        exact ihes pp hk2 hnd2.2 hwf2.2
      · -- cross-disjointness between the head entry and later siblings
        intro x hx y hy
        have hx1 : x ∈ clipsFromChildren pp [e] := by
          simpa [clipsFromChildren] using hx
        have hkx : entryListSize [e] ≤ k := by
          have : entryListSize [e] = entrySize e := by simp [entryListSize]
          omega
        obtain ⟨e₁, he₁, s₁, hs₁⟩ := clipsFromChildren_shape k [e] pp x hkx hx1
        have he₁' : e₁ = e := by simpa using he₁
        subst he₁'
        have hky : entryListSize es ≤ k := by omega
        obtain ⟨e₂, he₂, s₂, hs₂⟩ := clipsFromChildren_shape k es pp y hky hy
        have hne : Entry.name e₁ ≠ Entry.name e₂ := by
          intro hcontra
          exact hnd2.1 (hcontra ▸ List.mem_map_of_mem Entry.name he₂)
        constructor
        · rw [hs₁, hs₂]
          exact not_isPre_of_ne_head pp s₁ s₂ hne
        · rw [hs₁, hs₂]
          exact not_isPre_of_ne_head pp s₂ s₁ hne.symm

theorem pathsDisjoint_symm : ∀ {a b : ClipDir},
    pathsDisjoint a b → pathsDisjoint b a := fun h => ⟨h.2, h.1⟩

/-- The records of a popped well-formed directory are pairwise non-nested. -/
theorem clipsFromPopped_pairwise (p : FsPath) (e : Entry)
    (h : wfB e = true) : (clipsFromPopped p e).Pairwise pathsDisjoint := by
  cases e with
  | file n => simp [clipsFromPopped]
  | dir n r ch =>
    cases r with
    | false => simp [clipsFromPopped]
    | true =>
      have hw := wfB_dir.mp h
      exact clipsFromChildren_pairwise (entryListSize ch) ch p le_rfl hw.1 hw.2

/-- Claim C2, counterexample: a root directory whose read_dir fails (here
modelled with readable = false) does NOT make the scan return an error; the
scan succeeds with an empty record list, and the clip folder inside the
unreadable root is never seen.  This contradicts the claim that the scan
fails as a whole exactly when the root cannot be listed: the Err branch of
fn main (exit status 1) is unreachable. -/
theorem C2_counterexample :
    find_fg_clip_dirs ["root"]
      (Entry.dir "root" false [Entry.dir "fg_7_20250101_123456" true []])
      = Except.ok [] := by
  have h := find_fg_clip_dirs_perm ["root"]
    (Entry.dir "root" false [Entry.dir "fg_7_20250101_123456" true []])
    (scanGo [(["root"],
      Entry.dir "root" false [Entry.dir "fg_7_20250101_123456" true []])] []) rfl
  have hr : clipsFromPopped ["root"]
      (Entry.dir "root" false [Entry.dir "fg_7_20250101_123456" true []]) = [] := by
    simp [clipsFromPopped]
  rw [hr] at h
  exact congrArg Except.ok (List.perm_nil.mp h)

/-- Claim C2, amended: the scan operation never fails at all.  An unreadable
root directory is skipped like any other unreadable directory, yielding a
successful empty result (first conjunct: the scan always returns Ok), and a
deeper unreadable non-matching directory contributes no records (second
conjunct: removing it from a listing leaves the scan result unchanged up to
order). -/
theorem C2_scan_never_fails :
    (∀ (p : FsPath) (e : Entry), ∃ l, find_fg_clip_dirs p e = Except.ok l) ∧
    (∀ (rp : FsPath) (rn n : String) (ch rest : List Entry)
        (l l' : List ClipDir),
      matchFg n = none →
      find_fg_clip_dirs rp (Entry.dir rn true (Entry.dir n false ch :: rest))
        = Except.ok l →
      find_fg_clip_dirs rp (Entry.dir rn true rest) = Except.ok l' →
      l.Perm l') := by
  constructor
  · intro p e
    exact ⟨scanGo [(p, e)] [], rfl⟩
  · intro rp rn n ch rest l l' hm h1 h2
    have hp1 := find_fg_clip_dirs_perm _ _ _ h1
    have hp2 := find_fg_clip_dirs_perm _ _ _ h2
    have he : clipsFromPopped rp (Entry.dir rn true (Entry.dir n false ch :: rest))
        = clipsFromPopped rp (Entry.dir rn true rest) := by
      simp [clipsFromPopped, clipsFromChildren, clipsFromChild, hm]
    rw [he] at hp1
    exact hp1.trans hp2.symm

/-- Witness for C2_scan_never_fails at concrete inputs: a scan of an empty
readable root succeeds, and dropping an unreadable non-matching subdirectory
from a listing does not change the scan result. -/
theorem C2_scan_never_fails_witness :
    (∃ l, find_fg_clip_dirs ["r"] (Entry.dir "r" true []) = Except.ok l) ∧
    (scanGo [((["r"] : FsPath), Entry.dir "r" true
        [Entry.dir "sub" false [], Entry.dir "fg_3_20250101_000000" true []])] []).Perm
      (scanGo [((["r"] : FsPath), Entry.dir "r" true
        [Entry.dir "fg_3_20250101_000000" true []])] []) :=
  ⟨C2_scan_never_fails.1 ["r"] (Entry.dir "r" true []),
    C2_scan_never_fails.2 ["r"] "r" "sub" []
      [Entry.dir "fg_3_20250101_000000" true []] _ _ rfl rfl rfl⟩

/-- Claim C3, counterexample: the scanner does NOT descend into a directory
whose name matches the grammar with identifier 0.  Here fg_0_20250101_000000
contains fg_5_20250102_000000; if the zero-identifier directory were pushed
for further traversal like a non-matching directory, the nested clip would be
recorded, but the scan returns no records at all. -/
theorem C3_counterexample :
    find_fg_clip_dirs ["r"]
      (Entry.dir "r" true [Entry.dir "fg_0_20250101_000000" true
        [Entry.dir "fg_5_20250102_000000" true []]])
      = Except.ok [] := by
  have hm : matchFg "fg_0_20250101_000000" = some ("0", "20250101", "000000") := rfl
  have h0 : appidOf "0" = 0 := rfl
  have h := find_fg_clip_dirs_perm ["r"]
    (Entry.dir "r" true [Entry.dir "fg_0_20250101_000000" true
      [Entry.dir "fg_5_20250102_000000" true []]])
    (scanGo [(["r"], Entry.dir "r" true [Entry.dir "fg_0_20250101_000000" true
      [Entry.dir "fg_5_20250102_000000" true []]])] []) rfl
  have hr : clipsFromPopped ["r"]
      (Entry.dir "r" true [Entry.dir "fg_0_20250101_000000" true
        [Entry.dir "fg_5_20250102_000000" true []]]) = [] := by
    simp [clipsFromPopped, clipsFromChildren, clipsFromChild, hm, h0]
  rw [hr] at h
  exact congrArg Except.ok (List.perm_nil.mp h)

/-- Claim C3, amended: a directory whose name matches the clip grammar with
an identifier parsing to 0 produces no record AND is terminal: the scanner
does not descend into it (exactly like a recognized clip folder), so its
entire subtree contributes nothing.  First conjunct: its specification-view
contribution is empty whatever its contents; second conjunct: removing it
from a listing leaves the scan result unchanged up to order. -/
theorem C3_zero_id_terminal :
    ∀ (pp : FsPath) (nm : String) (r : Bool) (ch : List Entry) (a d t : String),
      matchFg nm = some (a, d, t) → appidOf a = 0 →
      clipsFromChild pp (Entry.dir nm r ch) = [] ∧
      (∀ (rp : FsPath) (rn : String) (rest : List Entry) (l l' : List ClipDir),
        find_fg_clip_dirs rp (Entry.dir rn true (Entry.dir nm r ch :: rest))
          = Except.ok l →
        find_fg_clip_dirs rp (Entry.dir rn true rest) = Except.ok l' →
        l.Perm l') := by
  intro pp nm r ch a d t hm h0
  constructor
  · simp [clipsFromChild, hm, h0]
  · intro rp rn rest l l' h1 h2
    have hp1 := find_fg_clip_dirs_perm _ _ _ h1
    have hp2 := find_fg_clip_dirs_perm _ _ _ h2
    have he : clipsFromPopped rp (Entry.dir rn true (Entry.dir nm r ch :: rest))
        = clipsFromPopped rp (Entry.dir rn true rest) := by
      simp [clipsFromPopped, clipsFromChildren, clipsFromChild, hm, h0]
    rw [he] at hp1
    exact hp1.trans hp2.symm

/-- Witness for C3_zero_id_terminal: the zero-identifier clip directory
fg_0_20250101_000000 (containing a valid-looking nested clip) contributes
nothing and is not traversed. -/
theorem C3_zero_id_terminal_witness :
    clipsFromChild ["r"] (Entry.dir "fg_0_20250101_000000" true
      [Entry.dir "fg_5_20250102_000000" true []]) = [] ∧
    (∀ (rp : FsPath) (rn : String) (rest : List Entry) (l l' : List ClipDir),
      find_fg_clip_dirs rp (Entry.dir rn true
        (Entry.dir "fg_0_20250101_000000" true
          [Entry.dir "fg_5_20250102_000000" true []] :: rest)) = Except.ok l →
      find_fg_clip_dirs rp (Entry.dir rn true rest) = Except.ok l' →
      l.Perm l') :=
  C3_zero_id_terminal ["r"] "fg_0_20250101_000000" true
    [Entry.dir "fg_5_20250102_000000" true []] "0" "20250101" "000000" rfl rfl

/-- Claim C4, counterexample: the directory fg_4294967296_20250101_123456
matches the anchored clip grammar and its identifier digit group 4294967296
is nonzero, yet the scanner produces NO record for it: 4294967296 exceeds
u32::MAX, parse::<u32>() fails and unwrap_or(0) classifies the directory as a
zero-identifier match, which is excluded. -/
theorem C4_counterexample :
    find_fg_clip_dirs ["r"]
      (Entry.dir "r" true [Entry.dir "fg_4294967296_20250101_123456" true []])
      = Except.ok [] := by
  have hm : matchFg "fg_4294967296_20250101_123456"
      = some ("4294967296", "20250101", "123456") := rfl
  have h0 : appidOf "4294967296" = 0 := rfl
  have h := find_fg_clip_dirs_perm ["r"]
    (Entry.dir "r" true [Entry.dir "fg_4294967296_20250101_123456" true []])
    (scanGo [(["r"],
      Entry.dir "r" true [Entry.dir "fg_4294967296_20250101_123456" true []])] []) rfl
  have hr : clipsFromPopped ["r"]
      (Entry.dir "r" true [Entry.dir "fg_4294967296_20250101_123456" true []])
      = [] := by
    simp [clipsFromPopped, clipsFromChildren, clipsFromChild, hm, h0]
  rw [hr] at h
  exact congrArg Except.ok (List.perm_nil.mp h)

/-- Claim C4, amended: the scan output is, up to order, exactly the
specification-view record collection clipsFromPopped / clipsFromChild, which
contains one record per reachable directory whose name matches the anchored
clip grammar AND whose identifier digit group parses to a nonzero u32 value
(appidOf, i.e. parse::<u32>().unwrap_or(0), is nonzero); that record carries
the parsed identifier and the date and time digit groups verbatim.  On a
well-formed tree (distinct sibling names) the output moreover has no
duplicate records, so each such directory yields exactly one record. -/
theorem C4_records_exact :
    ∀ (p : FsPath) (e : Entry) (l : List ClipDir),
      find_fg_clip_dirs p e = Except.ok l →
      l.Perm (clipsFromPopped p e) ∧ (wfB e = true → l.Nodup) := by
  intro p e l h
  have hp := find_fg_clip_dirs_perm p e l h
  refine ⟨hp, fun hwf => ?_⟩
  have hpw : (clipsFromPopped p e).Pairwise pathsDisjoint :=
    clipsFromPopped_pairwise p e hwf
  have hlw : l.Pairwise pathsDisjoint :=
    hp.symm.pairwise hpw (fun hab => pathsDisjoint_symm hab)
  exact hlw.imp (fun hab => by
    intro hcontra
    exact hab.1 (hcontra ▸ List.prefix_refl _))

/-- Witness for C4_records_exact: a concrete scan containing one matching
clip directory, with its record collection and duplicate-freeness. -/
theorem C4_records_exact_witness :
    (scanGo [((["r"] : FsPath),
        Entry.dir "r" true [Entry.dir "fg_7_20250102_030405" true []])] []).Perm
      (clipsFromPopped ["r"]
        (Entry.dir "r" true [Entry.dir "fg_7_20250102_030405" true []])) ∧
    (wfB (Entry.dir "r" true [Entry.dir "fg_7_20250102_030405" true []]) = true →
      (scanGo [((["r"] : FsPath),
        Entry.dir "r" true [Entry.dir "fg_7_20250102_030405" true []])] []).Nodup) :=
  C4_records_exact ["r"]
    (Entry.dir "r" true [Entry.dir "fg_7_20250102_030405" true []]) _ rfl

/-- Claim C5: every record the scan returns has a strictly positive
identifier; in particular a grammar-matching directory whose identifier
parses to 0 never produces a record. -/
theorem C5_appid_pos :
    ∀ (p : FsPath) (e : Entry) (l : List ClipDir),
      find_fg_clip_dirs p e = Except.ok l → ∀ c ∈ l, 0 < c.appid := by
  intro p e l h c hc
  have hp := find_fg_clip_dirs_perm p e l h
  have hc2 : c ∈ clipsFromPopped p e := hp.mem_iff.mp hc
  cases e with
  | file n => simp [clipsFromPopped] at hc2
  | dir n r ch =>
    cases r with
    | false => simp [clipsFromPopped] at hc2
    | true =>
      have hc3 : c ∈ clipsFromChildren p ch := by
        simpa [clipsFromPopped] using hc2
      exact clipsFromChildren_appid_pos (entryListSize ch) ch p c le_rfl hc3

/-- Witness for C5_appid_pos: the record of fg_7_20250102_030405 has a
positive identifier. -/
theorem C5_appid_pos_witness :
    0 < (ClipDir.mk ["r", "fg_7_20250102_030405"] 7 "20250102" "030405").appid := by
  have hm : matchFg "fg_7_20250102_030405" = some ("7", "20250102", "030405") := rfl
  have ha : appidOf "7" = 7 := rfl
  have hr : clipsFromPopped ["r"]
      (Entry.dir "r" true [Entry.dir "fg_7_20250102_030405" true []])
      = [ClipDir.mk ["r", "fg_7_20250102_030405"] 7 "20250102" "030405"] := by
    simp [clipsFromPopped, clipsFromChildren, clipsFromChild, hm, ha]
  have hperm := find_fg_clip_dirs_perm ["r"]
    (Entry.dir "r" true [Entry.dir "fg_7_20250102_030405" true []])
    (scanGo [(["r"],
      Entry.dir "r" true [Entry.dir "fg_7_20250102_030405" true []])] []) rfl
  rw [hr] at hperm
  have heval := List.perm_singleton.mp hperm
  exact C5_appid_pos ["r"]
    (Entry.dir "r" true [Entry.dir "fg_7_20250102_030405" true []])
    [ClipDir.mk ["r", "fg_7_20250102_030405"] 7 "20250102" "030405"]
    (congrArg Except.ok heval)
    (ClipDir.mk ["r", "fg_7_20250102_030405"] 7 "20250102" "030405")
    (List.mem_singleton.mpr rfl)

/-- Claim C6: the scanner never descends into a directory it classified as a
clip.  On a well-formed tree the returned records are pairwise path-disjoint:
no record's directory is a prefix of another record's directory, so a
matching directory nested inside a recorded clip folder never appears as a
second record. -/
theorem C6_no_nested_records :
    ∀ (p : FsPath) (e : Entry) (l : List ClipDir),
      wfB e = true → find_fg_clip_dirs p e = Except.ok l →
      l.Pairwise pathsDisjoint := by
  intro p e l hwf h
  have hp := find_fg_clip_dirs_perm p e l h
  exact hp.symm.pairwise (clipsFromPopped_pairwise p e hwf)
    (fun hab => pathsDisjoint_symm hab)

/-- Witness for C6_no_nested_records: a clip folder containing a nested
matching-looking subfolder; the scan result is pairwise path-disjoint. -/
theorem C6_no_nested_records_witness :
    (scanGo [((["r"] : FsPath), Entry.dir "r" true
      [Entry.dir "fg_9_20250103_111213" true
        [Entry.dir "fg_10_20250104_111213" true []]])] []).Pairwise pathsDisjoint :=
  C6_no_nested_records ["r"]
    (Entry.dir "r" true [Entry.dir "fg_9_20250103_111213" true
      [Entry.dir "fg_10_20250104_111213" true []]]) _
    (by simp [wfB, wfListB, Entry.name]) rfl

/-- ASCII whitespace, embedding the regex class \s (the regex crate's \s is
Unicode-aware; the manifest files at hand are ASCII). -/
def isWsCh (c : Char) : Bool :=
  c = ' ' || c = '\t' || c = '\n' || c = '\r' || c = '\x0B' || c = '\x0C'

/-- Skip a run of whitespace (the \s* between key and value). -/
def dropWs : List Char → List Char
  | [] => []
  | c :: cs => if isWsCh c then dropWs cs else c :: cs

/-- Try to match the pattern "KEY"\s*"([^\x22]+)" at the very start of the
input, returning the captured value and the remaining input after the match.
The value group is a nonempty run of non-quote characters followed by the
closing quote; since the group cannot contain a quote the match, when it
exists, is unique. -/
def tryKeyVal (key : List Char) (cs : List Char) :
    Option (List Char × List Char) :=
  match cs with
  | '"' :: cs1 =>
    match stripPre key cs1 with
    | some ('"' :: cs3) =>
      match dropWs cs3 with
      | '"' :: cs5 =>
        match cs5.dropWhile fun c => !(c = '"') with
        | '"' :: cs7 =>
          if (cs5.takeWhile fun c => !(c = '"')).isEmpty then none
          else some (cs5.takeWhile fun c => !(c = '"'), cs7)
        | _ => none
      | _ => none
    | _ => none
  | _ => none

theorem stripPre_length_le :
    ∀ (key cs rest : List Char), stripPre key cs = some rest →
      rest.length ≤ cs.length := by
  intro key
  induction key with
  | nil =>
    intro cs rest h
    simp [stripPre] at h
    subst h
    exact le_rfl
  | cons p ps ih =>
    intro cs rest h
    cases cs with
    | nil => simp [stripPre] at h
    | cons c cs' =>
      by_cases hcp : c = p
      · simp only [stripPre, if_pos hcp] at h
        have := ih cs' rest h
        simp only [List.length_cons]
        omega
      · simp [stripPre, hcp] at h

theorem dropWs_length_le : ∀ (cs : List Char), (dropWs cs).length ≤ cs.length := by
  intro cs
  induction cs with
  | nil => simp [dropWs]
  | cons c cs' ih =>
    by_cases hw : isWsCh c = true
    · simp only [dropWs, if_pos hw]
      simp only [List.length_cons]
      omega
    · simp [dropWs, hw]

theorem tryKeyVal_length (key cs v rem : List Char)
    (h : tryKeyVal key cs = some (v, rem)) : rem.length < cs.length := by
  unfold tryKeyVal at h
  split at h
  next c1 =>
    split at h
    next cs3 hstrip =>
      split at h
      next cs5 hdrop =>
        split at h
        next cs7 hdw =>
          split at h
          next => exact absurd h (by simp)
          next =>
            have hrem : rem = cs7 := by
              have h' := h
              simp only [Option.some.injEq, Prod.mk.injEq] at h'
              exact h'.2.symm
            have h1 := stripPre_length_le key _ _ hstrip
            have h2 := dropWs_length_le cs3
            have h3 : (cs5.dropWhile fun c => !(c = '"')).length ≤ cs5.length :=
              (List.dropWhile_sublist _).length_le
            rw [hdrop] at h2
            rw [hdw] at h3
            subst hrem
            simp only [List.length_cons] at *
            omega
        next => exact absurd h (by simp)
      next => exact absurd h (by simp)
    next => exact absurd h (by simp)
  next => exact absurd h (by simp)

/-- Leftmost match of "KEY"\s*"([^\x22]+)" over the whole text, returning the
first captured value: the extraction performed by Regex::captures.  Used by
parse_acf_name. -/
def scanFirstKey (key : List Char) : List Char → Option (List Char)
  | [] => none
  | c :: rest =>
    match tryKeyVal key (c :: rest) with
    | some (v, _) => some v
    | none => scanFirstKey key rest

/-- All non-overlapping leftmost matches, each search resuming after the end
of the previous match: the extraction performed by Regex::captures_iter.
The fuel argument only drives termination: by tryKeyVal_length every step
strictly shrinks the input, so fuel = input length (as scanAllKey passes it)
never runs out before the input does. -/
def scanAllKeyAux (key : List Char) : Nat → List Char → List (List Char)
  | 0, _ => []
  | _ + 1, [] => []
  | fuel + 1, c :: rest =>
    match tryKeyVal key (c :: rest) with
    | some (v, rem) => v :: scanAllKeyAux key fuel rem
    | none => scanAllKeyAux key fuel rest

def scanAllKey (key : List Char) (cs : List Char) : List (List Char) :=
  scanAllKeyAux key cs.length cs

/-- fn parse_acf_name: first value of a quoted "name" "<value>" pair. -/
def parse_acf_name (txt : String) : Option String :=
  (scanFirstKey "name".data txt.data).map fun v => String.mk v

/-- fn parse_libraryfolders_paths: every value of a quoted
"path" "<value>" pair, in text order. -/
def parse_libraryfolders_paths (txt : String) : List String :=
  (scanAllKey "path".data txt.data).map fun v => String.mk v

/-- The filesystem probes the discovery and resolution code performs:
is_dir, is_file and read_to_string (read_to_string returning none models an
Err from the read). -/
structure FsProbe where
  isDir : FsPath → Bool
  isFile : FsPath → Bool
  readFile : FsPath → Option String

/-- The roots contributed by one libraryfolders.vdf location: nothing unless
the file exists and reads; otherwise, for every extracted "path" value, the
path's steamapps subdirectory when it is a directory. -/
def rootsOfVdf (fs : FsProbe) (vdf : FsPath) : List FsPath :=
  if fs.isFile vdf then
    match fs.readFile vdf with
    | some txt =>
      (parse_libraryfolders_paths txt).flatMap fun s =>
        if fs.isDir [s, "steamapps"] then [[s, "steamapps"]] else []
    | none => []
  else []

/-- The roots contributed by one candidate Steam base directory: its
steamapps subdirectory when that exists, then the contributions of the two
registry-file locations. -/
def rootsOfBase (fs : FsProbe) (base : FsPath) : List FsPath :=
  (if fs.isDir (base ++ ["steamapps"]) then [base ++ ["steamapps"]] else [])
    ++ rootsOfVdf fs (base ++ ["config", "libraryfolders.vdf"])
    ++ rootsOfVdf fs (base ++ ["steamapps", "libraryfolders.vdf"])

/-- The collection phase of fn discover_steamapps_roots (the push loops). -/
def collectRoots (fs : FsProbe) (candidates : List FsPath) : List FsPath :=
  candidates.flatMap (rootsOfBase fs)

/-- Vec::dedup: remove consecutive duplicates. -/
def dedupAdj : List FsPath → List FsPath
  | [] => []
  | [a] => [a]
  | a :: b :: rest =>
    if a = b then dedupAdj (b :: rest) else a :: dedupAdj (b :: rest)

/-- fn discover_steamapps_roots: collect, then roots.sort() and
roots.dedup().  The candidate base directories come from the OS-specific
macro (environment inspection, passed here as a parameter). -/
def discover_steamapps_roots (fs : FsProbe) (candidates : List FsPath) :
    List FsPath :=
  dedupAdj (List.insertionSort (· ≤ ·) (collectRoots fs candidates))

theorem mem_dedupAdj : ∀ (l : List FsPath) (x : FsPath),
    x ∈ dedupAdj l ↔ x ∈ l := by
  intro l
  induction l with
  | nil => intro x; simp [dedupAdj]
  | cons a t ih =>
    intro x
    cases t with
    | nil => simp [dedupAdj]
    | cons b rest =>
      by_cases hab : a = b
      · subst hab
        have hd : dedupAdj (a :: a :: rest) = dedupAdj (a :: rest) := by
          simp [dedupAdj]
        rw [hd, ih x]
        simp [List.mem_cons]
      · have hd : dedupAdj (a :: b :: rest) = a :: dedupAdj (b :: rest) := by
          simp [dedupAdj, hab]
        rw [hd]
        simp only [List.mem_cons]
        rw [ih x]
        simp [List.mem_cons]

theorem sorted_lt_dedupAdj : ∀ (l : List FsPath),
    l.Sorted (· ≤ ·) → (dedupAdj l).Sorted (· < ·) := by
  intro l
  induction l with
  | nil => intro _; simp [dedupAdj]
  | cons a t ih =>
    intro hs
    cases t with
    | nil => simp [dedupAdj]
    | cons b rest =>
      have hparts := List.sorted_cons.mp hs
      have hs' : (b :: rest).Sorted (· ≤ ·) := hparts.2
      have hab : a ≤ b := hparts.1 b (List.mem_cons_self _ _)
      by_cases heq : a = b
      · rw [show dedupAdj (a :: b :: rest) = dedupAdj (b :: rest) by
          simp [dedupAdj, heq]]
        exact ih hs'
      · have hlt : a < b := lt_of_le_of_ne hab heq
        rw [show dedupAdj (a :: b :: rest) = a :: dedupAdj (b :: rest) by
          simp [dedupAdj, heq]]
        rw [List.sorted_cons]
        refine ⟨?_, ih hs'⟩
        intro x hx
        have hxm : x ∈ b :: rest := (mem_dedupAdj _ x).mp hx
        have hbx : b ≤ x := by
          rcases List.mem_cons.mp hxm with rfl | hxr
          · exact le_rfl
          · exact (List.sorted_cons.mp hs').1 x hxr
        exact lt_of_lt_of_le hlt hbx

theorem mem_if_singleton {c : Bool} {x p : FsPath} :
    (p ∈ if c = true then [x] else ([] : List FsPath)) ↔ (c = true ∧ p = x) := by
  cases c <;> simp

theorem mem_rootsOfVdf {fs : FsProbe} {vdf p : FsPath} :
    p ∈ rootsOfVdf fs vdf ↔
      (fs.isFile vdf = true ∧ ∃ txt, fs.readFile vdf = some txt ∧
        ∃ s ∈ parse_libraryfolders_paths txt,
          fs.isDir [s, "steamapps"] = true ∧ p = [s, "steamapps"]) := by
  by_cases hf : fs.isFile vdf = true
  · cases hr : fs.readFile vdf with
    | none => simp [rootsOfVdf, hf, hr]
    | some txt =>
      simp only [rootsOfVdf, if_pos hf, hr]
      constructor
      · intro hmem
        obtain ⟨s, hsmem, hsp⟩ := List.mem_flatMap.mp hmem
        obtain ⟨hdir, rfl⟩ := mem_if_singleton.mp hsp
        exact ⟨hf, txt, rfl, s, hsmem, hdir, rfl⟩
      · rintro ⟨-, txt', htxt, s, hsmem, hdir, rfl⟩
        obtain rfl : txt = txt' := Option.some.inj htxt
        exact List.mem_flatMap.mpr ⟨s, hsmem, mem_if_singleton.mpr ⟨hdir, rfl⟩⟩
  · simp [rootsOfVdf, hf]

theorem mem_rootsOfBase {fs : FsProbe} {base p : FsPath} :
    p ∈ rootsOfBase fs base ↔
      ((fs.isDir (base ++ ["steamapps"]) = true ∧ p = base ++ ["steamapps"]) ∨
        ∃ vdf ∈ [base ++ ["config", "libraryfolders.vdf"],
            base ++ ["steamapps", "libraryfolders.vdf"]],
          fs.isFile vdf = true ∧ ∃ txt, fs.readFile vdf = some txt ∧
            ∃ s ∈ parse_libraryfolders_paths txt,
              fs.isDir [s, "steamapps"] = true ∧ p = [s, "steamapps"]) := by
  constructor
  · intro h
    rcases List.mem_append.mp h with h1 | h2
    · rcases List.mem_append.mp h1 with h0 | hv1
      · exact Or.inl (mem_if_singleton.mp h0)
      · exact Or.inr ⟨_, by simp, mem_rootsOfVdf.mp hv1⟩
    · exact Or.inr ⟨_, by simp, mem_rootsOfVdf.mp h2⟩
  · rintro (⟨hdir, rfl⟩ | ⟨vdf, hvmem, hrest⟩)
    · exact List.mem_append.mpr (Or.inl (List.mem_append.mpr
        (Or.inl (mem_if_singleton.mpr ⟨hdir, rfl⟩))))
    · simp only [List.mem_cons, List.not_mem_nil, or_false] at hvmem
      rcases hvmem with rfl | rfl
      · exact List.mem_append.mpr (Or.inl (List.mem_append.mpr
          (Or.inr (mem_rootsOfVdf.mpr hrest))))
      · exact List.mem_append.mpr (Or.inr (mem_rootsOfVdf.mpr hrest))

/-- The manifest file path probed for an appid under one root:
root.join(appmanifest_<appid>.acf). -/
def manifestPath (root : FsPath) (appid : Nat) : FsPath :=
  root ++ ["appmanifest_" ++ toString appid ++ ".acf"]

/-- fn resolve_app_name: walk the roots in order; on the first root whose
manifest file exists, reads, and yields a name via parse_acf_name, return
that name immediately; a root failing any of the three steps is passed over;
no root succeeding yields none. -/
def resolve_app_name (fs : FsProbe) (appid : Nat) : List FsPath → Option String
  | [] => none
  | root :: rest =>
    if fs.isFile (manifestPath root appid) then
      match fs.readFile (manifestPath root appid) with
      | some txt =>
        match parse_acf_name txt with
        | some nm => some nm
        | none => resolve_app_name fs appid rest
      | none => resolve_app_name fs appid rest
    else resolve_app_name fs appid rest

/-- What a single root yields for an appid: the parsed name when its
manifest exists, reads and parses; nothing otherwise. -/
def rootYield (fs : FsProbe) (appid : Nat) (root : FsPath) : Option String :=
  if fs.isFile (manifestPath root appid) then
    match fs.readFile (manifestPath root appid) with
    | some txt => parse_acf_name txt
    | none => none
  else none

theorem resolve_eq_rootYield_head (fs : FsProbe) (appid : Nat)
    (root : FsPath) (rest : List FsPath) :
    resolve_app_name fs appid (root :: rest)
      = match rootYield fs appid root with
        | some nm => some nm
        | none => resolve_app_name fs appid rest := by
  by_cases hf : fs.isFile (manifestPath root appid) = true
  · cases hr : fs.readFile (manifestPath root appid) with
    | none => simp [resolve_app_name, rootYield, hf, hr]
    | some txt =>
      cases hp : parse_acf_name txt with
      | none => simp [resolve_app_name, rootYield, hf, hr, hp]
      | some nm => simp [resolve_app_name, rootYield, hf, hr, hp]
  · simp [resolve_app_name, rootYield, hf]

/-- Claim C7: app-name resolution is first-match-wins in root-list order and
total.  First conjunct: when no root yields a name the resolver returns
none (not an error).  Second conjunct: when every root before some root
yields nothing and that root yields a name, the resolver returns exactly that
name, whatever comes later in the list.  The resolver is a pure function of
the root list and probed file contents, so repeated runs on identical input
are deterministic by construction. -/
theorem C7_first_match_wins :
    (∀ (fs : FsProbe) (appid : Nat) (roots : List FsPath),
      (∀ r ∈ roots, rootYield fs appid r = none) →
      resolve_app_name fs appid roots = none) ∧
    (∀ (fs : FsProbe) (appid : Nat) (early : List FsPath) (root : FsPath)
        (rest : List FsPath) (nm : String),
      (∀ r ∈ early, rootYield fs appid r = none) →
      rootYield fs appid root = some nm →
      resolve_app_name fs appid (early ++ root :: rest) = some nm) := by
  constructor
  · intro fs appid roots hnone
    induction roots with
    | nil => simp [resolve_app_name]
    | cons r rs ih =>
      rw [resolve_eq_rootYield_head]
      rw [hnone r (List.mem_cons_self _ _)]
      exact ih fun r' hr' => hnone r' (List.mem_cons_of_mem _ hr')
  · intro fs appid early root rest nm hearly hroot
    induction early with
    | nil =>
      rw [List.nil_append, resolve_eq_rootYield_head, hroot]
    | cons r rs ih =>
      rw [List.cons_append, resolve_eq_rootYield_head]
      rw [hearly r (List.mem_cons_self _ _)]
      exact ih fun r' hr' => hearly r' (List.mem_cons_of_mem _ hr')

/-- Concrete two-root filesystem for the C7 witness: both roots hold a
manifest for appid 7, with different names. -/
def fs7 : FsProbe where
  isDir := fun _ => false
  isFile := fun p =>
    decide (p = ["r1", "appmanifest_7.acf"]) ||
      decide (p = ["r2", "appmanifest_7.acf"])
  readFile := fun p =>
    if p = ["r1", "appmanifest_7.acf"] then some "\"name\"  \"Alpha\""
    else if p = ["r2", "appmanifest_7.acf"] then some "\"name\" \"Beta\""
    else none

/-- Witness for C7_first_match_wins: with both roots carrying a manifest for
appid 7, the resolver returns the first root's name Alpha; with no roots it
returns none. -/
theorem C7_first_match_wins_witness :
    resolve_app_name fs7 7 [] = none ∧
    resolve_app_name fs7 7 [["r1"], ["r2"]] = some "Alpha" := by
  constructor
  · exact C7_first_match_wins.1 fs7 7 [] (by simp)
  · exact C7_first_match_wins.2 fs7 7 [] ["r1"] [["r2"]] "Alpha" (by simp) rfl

/-- Claim C8: the library-root resolver returns a deduplicated, sorted list
whose members are exactly each candidate base's steamapps subdirectory when
that exists, plus, for each path extracted from either of the two
registry-file locations of a candidate, that path's steamapps subdirectory
when it exists; a missing base directory or an unreadable registry file
contributes nothing and raises no error, and an empty result (in particular
from an empty candidate list) is a valid return. -/
theorem C8_roots_sorted_dedup_exact :
    ∀ (fs : FsProbe) (candidates : List FsPath),
      (discover_steamapps_roots fs candidates).Sorted (· ≤ ·) ∧
      (discover_steamapps_roots fs candidates).Nodup ∧
      (∀ p, p ∈ discover_steamapps_roots fs candidates ↔
        ∃ base ∈ candidates,
          (fs.isDir (base ++ ["steamapps"]) = true ∧ p = base ++ ["steamapps"]) ∨
          ∃ vdf ∈ [base ++ ["config", "libraryfolders.vdf"],
              base ++ ["steamapps", "libraryfolders.vdf"]],
            fs.isFile vdf = true ∧ ∃ txt, fs.readFile vdf = some txt ∧
              ∃ s ∈ parse_libraryfolders_paths txt,
                fs.isDir [s, "steamapps"] = true ∧ p = [s, "steamapps"]) := by
  intro fs candidates
  have hsorted_le : (List.insertionSort (· ≤ ·) (collectRoots fs candidates)).Sorted
      (· ≤ ·) := List.sorted_insertionSort _ _
  have hlt := sorted_lt_dedupAdj _ hsorted_le
  refine ⟨hlt.imp fun hab => le_of_lt hab, hlt.imp fun hab => ne_of_lt hab, ?_⟩
  intro p
  rw [show discover_steamapps_roots fs candidates
      = dedupAdj (List.insertionSort (· ≤ ·) (collectRoots fs candidates)) from rfl]
  rw [mem_dedupAdj]
  rw [(List.perm_insertionSort (· ≤ ·) (collectRoots fs candidates)).mem_iff]
  rw [show collectRoots fs candidates = candidates.flatMap (rootsOfBase fs) from rfl]
  rw [List.mem_flatMap]
  constructor
  · rintro ⟨base, hb, hmem⟩
    exact ⟨base, hb, mem_rootsOfBase.mp hmem⟩
  · rintro ⟨base, hb, hmem⟩
    exact ⟨base, hb, mem_rootsOfBase.mpr hmem⟩

/-- Path::parent — every path but the empty one has a parent (the path
without its last component). -/
def pathParent (p : FsPath) : Option FsPath :=
  if p.isEmpty then none else some p.dropLast

/-- Path::file_name — the last component. -/
def pathFileName (p : FsPath) : Option String := p.getLast?

/-- One entry of a read_dir listing as the cleanup controller sees it: only
its is_dir status is consulted. -/
structure DirEnt where
  name : String
  isDir : Bool

/-- Outcome of the cleanup decision: do nothing, or remove_dir_all on the
named directory (the removal's own failure is reported and not escalated). -/
inductive CleanupAction where
  | noop
  | removeDir (p : FsPath)
deriving DecidableEq

/-- fn maybe_remove_clip_grandparent: the three-gate cascade run after the
clip folder itself was removed.  Gate 1: the clip's parent is named exactly
"video" (otherwise do nothing).  Gate 2: list the parent; if any directory
entry remains, do nothing; note a failed read_dir (videoListing = none)
leaves any_left at false.  Gate 3: the grandparent's name matches the
container grammar clip_<digits>_<8digits>_<6digits>; then remove it. -/
def maybe_remove_clip_grandparent (clipDir : FsPath)
    (videoListing : Option (List DirEnt)) : CleanupAction :=
  match pathParent clipDir with
  | none => .noop
  | some videoDir =>
    if pathFileName videoDir ≠ some "video" then .noop
    else
      if (match videoListing with
          | some ents => ents.any fun en => en.isDir
          | none => false) then .noop
      else
        match pathParent videoDir with
        | none => .noop
        | some clipParent =>
          match pathFileName clipParent with
          | some nm =>
            if isClipContainerName nm then .removeDir clipParent else .noop
          | none => .noop

theorem dropLast_append_two (q : FsPath) (a b : String) :
    (q ++ [a, b]).dropLast = q ++ [a] := by
  have h : q ++ [a, b] = (q ++ [a]) ++ [b] := by simp
  rw [h, List.dropLast_concat]

theorem getLast?_append_one (q : FsPath) (a : String) :
    (q ++ [a]).getLast? = some a := by
  simp [List.getLast?_concat]

theorem pathParent_append_two (q : FsPath) (a b : String) :
    pathParent (q ++ [a, b]) = some (q ++ [a]) := by
  have hne : (q ++ [a, b]).isEmpty = false := by
    simp [List.isEmpty_iff]
  simp [pathParent, hne, dropLast_append_two]

theorem pathParent_append_three (q : FsPath) (a b c : String) :
    pathParent (q ++ [a, b, c]) = some (q ++ [a, b]) := by
  have h : q ++ [a, b, c] = (q ++ [a]) ++ [b, c] := by simp
  rw [h, pathParent_append_two]
  simp

theorem getLast?_append_two (q : FsPath) (a b : String) :
    (q ++ [a, b]).getLast? = some b := by
  have h : q ++ [a, b] = (q ++ [a]) ++ [b] := by simp
  rw [h, getLast?_append_one]

/-- Claim C9: the cleanup cascade.  Conjunct 1 (Gate 1 failing): a parent not
named "video" means nothing is removed.  Conjunct 2 (Gate 2 failing): a
remaining directory entry under video means nothing is removed.  Conjunct 3
(Gate 3 failing): a grandparent not matching the container grammar means
nothing is removed.  Conjunct 4 (all gates passing): parent named "video",
no directory entry remaining, grandparent matching the container grammar —
the grandparent is removed.  Every failing gate is a do-nothing terminal. -/
theorem C9_cleanup_gates :
    (∀ (q : FsPath) (pn fgname : String) (ls : Option (List DirEnt)),
      pn ≠ "video" →
      maybe_remove_clip_grandparent (q ++ [pn, fgname]) ls = CleanupAction.noop) ∧
    (∀ (q : FsPath) (fgname : String) (ents : List DirEnt),
      (∃ en ∈ ents, en.isDir = true) →
      maybe_remove_clip_grandparent (q ++ ["video", fgname]) (some ents)
        = CleanupAction.noop) ∧
    (∀ (gp : FsPath) (gname fgname : String) (ents : List DirEnt),
      (∀ en ∈ ents, en.isDir = false) →
      isClipContainerName gname = false →
      maybe_remove_clip_grandparent (gp ++ [gname, "video", fgname]) (some ents)
        = CleanupAction.noop) ∧
    (∀ (gp : FsPath) (gname fgname : String) (ents : List DirEnt),
      (∀ en ∈ ents, en.isDir = false) →
      isClipContainerName gname = true →
      maybe_remove_clip_grandparent (gp ++ [gname, "video", fgname]) (some ents)
        = CleanupAction.removeDir (gp ++ [gname])) := by
  refine ⟨?_, ?_, ?_, ?_⟩
  · intro q pn fgname ls hpn
    have hname : pathFileName (q ++ [pn]) = some pn := getLast?_append_one q pn
    simp [maybe_remove_clip_grandparent, pathParent_append_two, hname, hpn]
  · intro q fgname ents hleft
    have hany : (ents.any fun en => en.isDir) = true := by
      obtain ⟨en, hen, hdir⟩ := hleft
      exact List.any_eq_true.mpr ⟨en, hen, hdir⟩
    have hname : pathFileName (q ++ ["video"]) = some "video" :=
      getLast?_append_one q "video"
    simp [maybe_remove_clip_grandparent, pathParent_append_two, hname, hany]
  · intro gp gname fgname ents hnone hcont
    have hany : (ents.any fun en => en.isDir) = false := by
      rw [List.any_eq_false]
      intro en hen
      simp [hnone en hen]
    simp [maybe_remove_clip_grandparent, pathParent_append_three,
      pathParent_append_two, pathFileName, getLast?_append_two,
      getLast?_append_one, hany, hcont]
  · intro gp gname fgname ents hnone hcont
    have hany : (ents.any fun en => en.isDir) = false := by
      rw [List.any_eq_false]
      intro en hen
      simp [hnone en hen]
    simp [maybe_remove_clip_grandparent, pathParent_append_three,
      pathParent_append_two, pathFileName, getLast?_append_two,
      getLast?_append_one, hany, hcont]

/-- Witness for C9_cleanup_gates at the specification's own example: with
clip_42_20250101_100000/video/fg_42_20250101_100000 the sole child of video,
the grandparent is removed; with a remaining sibling directory under video,
nothing further is removed; a non-matching grandparent or parent is a
do-nothing terminal. -/
theorem C9_cleanup_gates_witness :
    maybe_remove_clip_grandparent
      ["clip_42_20250101_100000", "video", "fg_42_20250101_100000"] (some [])
      = CleanupAction.removeDir ["clip_42_20250101_100000"] ∧
    maybe_remove_clip_grandparent
      ["clip_42_20250101_100000", "video", "fg_42_20250101_100000"]
      (some [⟨"fg_43_20250101_100000", true⟩])
      = CleanupAction.noop ∧
    maybe_remove_clip_grandparent
      ["not_a_container", "video", "fg_42_20250101_100000"] (some [])
      = CleanupAction.noop ∧
    maybe_remove_clip_grandparent
      ["clip_42_20250101_100000", "media", "fg_42_20250101_100000"] (some [])
      = CleanupAction.noop := by
  refine ⟨?_, ?_, ?_, ?_⟩
  · exact C9_cleanup_gates.2.2.2 [] "clip_42_20250101_100000"
      "fg_42_20250101_100000" [] (by simp) rfl
  · exact C9_cleanup_gates.2.1 ["clip_42_20250101_100000"]
      "fg_42_20250101_100000" [⟨"fg_43_20250101_100000", true⟩]
      ⟨⟨"fg_43_20250101_100000", true⟩, by simp, rfl⟩
  · exact C9_cleanup_gates.2.2.1 [] "not_a_container"
      "fg_42_20250101_100000" [] (by simp) rfl
  · exact C9_cleanup_gates.1 ["clip_42_20250101_100000"] "media"
      "fg_42_20250101_100000" (some []) (by decide)

/-- Claim C10 (implicit): when listing the video directory fails
(videoListing = none), any_left stays false, so Gate 2 passes vacuously and
the grandparent is still removed although its emptiness was never verified. -/
theorem C10_listing_failure_passes_gate2 :
    ∀ (gp : FsPath) (gname fgname : String),
      isClipContainerName gname = true →
      maybe_remove_clip_grandparent (gp ++ [gname, "video", fgname]) none
        = CleanupAction.removeDir (gp ++ [gname]) := by
  intro gp gname fgname hcont
  simp [maybe_remove_clip_grandparent, pathParent_append_three,
    pathParent_append_two, pathFileName, getLast?_append_two,
    getLast?_append_one, hcont]

/-- Witness for C10_listing_failure_passes_gate2: an unreadable video
directory still lets the grandparent be removed. -/
theorem C10_listing_failure_passes_gate2_witness :
    maybe_remove_clip_grandparent
      ["clip_9_20250101_000000", "video", "fg_9_20250101_000000"] none
      = CleanupAction.removeDir ["clip_9_20250101_000000"] :=
  C10_listing_failure_passes_gate2 [] "clip_9_20250101_000000"
    "fg_9_20250101_000000" rfl

/-- Proleptic-Gregorian leap year, as chrono implements the calendar. -/
def isLeapYear (y : Nat) : Bool :=
  (y % 4 = 0 && !(y % 100 = 0 : Bool)) || y % 400 = 0

def daysInMonth (y m : Nat) : Nat :=
  if m = 2 then (if isLeapYear y then 29 else 28)
  else if m = 4 ∨ m = 6 ∨ m = 9 ∨ m = 11 then 30
  else 31

/-- NaiveDate::parse_from_str(date8, "%Y%m%d") on the scanner-produced
8-digit date group: year is the first four digits, month the next two, day
the last two; fails on an invalid calendar date (month outside 1..=12, day
outside 1..=days-in-month). -/
def parseDate8 (s : String) : Option (Nat × Nat × Nat) :=
  if s.data.length = 8 ∧ s.data.all isDigitCh then
    if 1 ≤ digitsVal ((s.data.drop 4).take 2) ∧
        digitsVal ((s.data.drop 4).take 2) ≤ 12 ∧
        1 ≤ digitsVal (s.data.drop 6) ∧
        digitsVal (s.data.drop 6) ≤
          daysInMonth (digitsVal (s.data.take 4))
            (digitsVal ((s.data.drop 4).take 2)) then
      some (digitsVal (s.data.take 4), digitsVal ((s.data.drop 4).take 2),
        digitsVal (s.data.drop 6))
    else none
  else none

/-- NaiveTime::parse_from_str(time6, "%H%M%S") on the scanner-produced
6-digit time group: hour outside 0..=23 or minute outside 0..=59 fails;
chrono's %S accepts 60 as a leap second. -/
def parseTime6 (s : String) : Option (Nat × Nat × Nat) :=
  if s.data.length = 6 ∧ s.data.all isDigitCh then
    if digitsVal (s.data.take 2) ≤ 23 ∧
        digitsVal ((s.data.drop 2).take 2) ≤ 59 ∧
        digitsVal (s.data.drop 4) ≤ 60 then
      some (digitsVal (s.data.take 2), digitsVal ((s.data.drop 2).take 2),
        digitsVal (s.data.drop 4))
    else none
  else none

/-- Days since 1970-01-01 of a proleptic-Gregorian civil date (the classic
days-from-civil computation; divisions only ever see nonnegative operands
here since the digit groups give years 0..=9999). -/
def daysFromCivil (y m d : Int) : Int :=
  let y2 : Int := if m ≤ 2 then y - 1 else y
  let era : Int := (if 0 ≤ y2 then y2 else y2 - 399) / 400
  let yoe : Int := y2 - era * 400
  let doy : Int := (153 * (if 2 < m then m - 3 else m + 9) + 2) / 5 + d - 1
  let doe : Int := yoe * 365 + yoe / 4 - yoe / 100 + doy
  era * 146097 + doe - 719468

/-- fn to_systemtime: parse the two digit groups with chrono, interpret the
result as UTC and return its Unix timestamp in seconds (a leap second 60 is
carried by chrono in the sub-second nanoseconds, so its seconds value is that
of second 59).  None exactly when either parse fails. -/
def to_systemtime (date8 time6 : String) : Option Int :=
  match parseDate8 date8, parseTime6 time6 with
  | some (y, m, d), some (h, mi, sec) =>
    some (daysFromCivil (y : Int) (m : Int) (d : Int) * 86400
      + (h : Int) * 3600 + (mi : Int) * 60 + ((min sec 59 : Nat) : Int))
  | _, _ => none

/-- What the per-clip loop in fn main does next after this clip. -/
inductive RunStep where
  | next (cleanup : CleanupAction)
  | exit (code : Nat)
deriving DecidableEq

/-- The body of fn main's per-clip loop after ffmpeg exited successfully
(lines 211-234): compute the clip's start instant and set the output file's
access and modification times to it; if the instant cannot be computed, or
set_file_times fails (set_times_ok = false), the branch prints a warning and
then calls std::process::exit(2), killing the whole run; otherwise the
delete-after logic runs (remove_dir_all outcome abstracted by remove_ok; on
its success the cleanup cascade runs) and the loop continues to the next
clip. -/
def after_successful_remux (clip : ClipDir)
    (set_times_ok delete_after remove_ok : Bool)
    (videoListing : Option (List DirEnt)) : RunStep :=
  match to_systemtime clip.date clip.time with
  | some _ =>
    if set_times_ok then
      if delete_after then
        if remove_ok then
          RunStep.next (maybe_remove_clip_grandparent clip.dir videoListing)
        else RunStep.next CleanupAction.noop
      else RunStep.next CleanupAction.noop
    else RunStep.exit 2
  | none => RunStep.exit 2

/-- Claim C1: the code contradicts the claim (and its own "[warn]" label).
After a successful remux, a failing set_file_times call (first conjunct,
set_times_ok = false on a perfectly parseable clip date) or an unparseable
clip date/time (second conjunct, day 99) does NOT continue to the next clip
with a success exit status: the loop body calls std::process::exit(2),
aborting the whole run with a failure status. -/
theorem C1_exit_on_timestamp_failure :
    after_successful_remux
      ⟨["fg_7_20250101_120000"], 7, "20250101", "120000"⟩ false false false none
      = RunStep.exit 2 ∧
    after_successful_remux
      ⟨["fg_7_20250199_120000"], 7, "20250199", "120000"⟩ true false false none
      = RunStep.exit 2 := by
  constructor
  · rfl
  · rfl

end SteamClip
